import Mathlib

set_option maxRecDepth 8192

/-!
Verification of `backend/scripts/generate_theme_seed.py`.

The script reads a fixed list of ten theme identifiers, loads
`<themes-root>/<slug>/theme.json` for each (skipping missing files with a
warning, aborting on malformed JSON), extracts `meta.name` / `meta.category` /
`meta.description` with defaults, serializes the whole document with
`json.dumps(..., ensure_ascii=False)`, escapes single quotes in name and
description, and writes one SQL `INSERT ... ON CONFLICT` file.

The embedding below models:
  * JSON documents (`Json`) with integer numerals;
  * the Python `json.dumps` serialization (`dumps`) and a reader (`loads`)
    for the exact textual format `dumps` produces, used to state that the
    payload embedded in the SQL round-trips;
  * the filesystem as a map from slug to file state (`FileContent`);
  * the generation pass (`loop` / `run`), including the output file state,
    so that abort-before-write behaviour is expressible.
-/

namespace ThemeSeed

/-- JSON value trees as produced by the Python `json` module. Object fields
are kept in insertion order, as Python dicts do. Numbers are modelled as
integers; floating-point numerals are outside the model. -/
inductive Json where
  | null
  | bool (b : Bool)
  | num (n : Int)
  | str (s : String)
  | arr (elems : List Json)
  | obj (fields : List (String × Json))

/-- Single-quote character, kept out of string literals. -/
def squote : Char := Char.ofNat 39

/-- Single-quote as a one-character string. -/
def sq : String := String.singleton squote

/-- Lower-case hexadecimal (and decimal) digit for a value below 16. -/
def hexDig (n : Nat) : Char :=
  if n < 10 then Char.ofNat (48 + n) else Char.ofNat (87 + n)

/-- Decimal digits of a natural number, most significant first, as Python
`str` renders a non-negative int. -/
def natDigs (n : Nat) : List Char :=
  if _h : n < 10 then [hexDig n] else natDigs (n / 10) ++ [hexDig (n % 10)]
termination_by n
decreasing_by
  exact Nat.div_lt_self (by omega) (by omega)

/-- Decimal rendering of a natural number. -/
def natToString (n : Nat) : String := String.mk (natDigs n)

/-- Decimal rendering of an integer, as Python `str` / `json.dumps` renders
an int. -/
def intChars (i : Int) : List Char :=
  if i < 0 then '-' :: natDigs i.natAbs else natDigs i.natAbs

/-- Escape of one character inside a JSON string literal, following
`json.dumps` with `ensure_ascii=False`: backslash, double quote and the named
control escapes get two-character escapes, the remaining control characters
get `\u00xx`, and every other character (including non-ASCII) is emitted
literally. -/
def escChar (c : Char) : List Char :=
  if c = '\\' then ['\\', '\\']
  else if c = '"' then ['\\', '"']
  else if c = '\x08' then ['\\', 'b']
  else if c = '\x0c' then ['\\', 'f']
  else if c = '\n' then ['\\', 'n']
  else if c = '\r' then ['\\', 'r']
  else if c = '\t' then ['\\', 't']
  else if c.toNat < 32 then
    ['\\', 'u', '0', '0', hexDig (c.toNat / 16), hexDig (c.toNat % 16)]
  else [c]

/-- Escape of a whole character list. -/
def escList : List Char → List Char
  | [] => []
  | c :: cs => escChar c ++ escList cs

/-- JSON string literal: escaped body between double quotes. -/
def encStrL (s : List Char) : List Char :=
  '"' :: (escList s ++ ['"'])

mutual

/-- Serialization of a JSON document, following Python
`json.dumps(x, ensure_ascii=False)` with the default separators
`", "` and `": "`. -/
def dumpsL : Json → List Char
  | .null => ['n', 'u', 'l', 'l']
  | .bool b => if b then ['t', 'r', 'u', 'e'] else ['f', 'a', 'l', 's', 'e']
  | .num i => intChars i
  | .str s => encStrL s.data
  | .arr es => '[' :: (dumpsA es ++ [']'])
  | .obj fs => '\x7b' :: (dumpsO fs ++ ['\x7d'])

/-- Serialization of array elements, `", "`-separated, without brackets. -/
def dumpsA : List Json → List Char
  | [] => []
  | [e] => dumpsL e
  | e :: es => dumpsL e ++ (',' :: ' ' :: dumpsA es)

/-- Serialization of object members, `", "`-separated, without braces. -/
def dumpsO : List (String × Json) → List Char
  | [] => []
  | [(k, v)] => encStrL k.data ++ (':' :: ' ' :: dumpsL v)
  | (k, v) :: fs => (encStrL k.data ++ (':' :: ' ' :: dumpsL v)) ++ (',' :: ' ' :: dumpsO fs)

end

/-- Serialization to a string; the model of `json.dumps(theme_data, ensure_ascii=False)`. -/
def dumps (j : Json) : String := String.mk (dumpsL j)

mutual

/-- Fuel bound sufficient for `parseVal` to consume the serialization of a
document. -/
def jsize : Json → Nat
  | .null | .bool _ | .num _ | .str _ => 1
  | .arr es => 1 + jsizeA es
  | .obj fs => 1 + jsizeO fs

/-- Fuel bound for `parseElems`. -/
def jsizeA : List Json → Nat
  | [] => 1
  | e :: es => 1 + jsize e + jsizeA es

/-- Fuel bound for `parseMembers`. -/
def jsizeO : List (String × Json) → Nat
  | [] => 1
  | (_, v) :: fs => 1 + jsize v + jsizeO fs

end

/-- Decimal digit test. -/
def isDigitC (c : Char) : Bool := 48 ≤ c.toNat && c.toNat ≤ 57

/-- An input continuation that cannot extend a decimal numeral: empty, or
starting with a non-digit. -/
def numSafe : List Char → Bool
  | [] => true
  | c :: _ => !isDigitC c

/-- Value of a hexadecimal digit character. -/
def hexVal (c : Char) : Option Nat :=
  if 48 ≤ c.toNat ∧ c.toNat ≤ 57 then some (c.toNat - 48)
  else if 97 ≤ c.toNat ∧ c.toNat ≤ 102 then some (c.toNat - 87)
  else if 65 ≤ c.toNat ∧ c.toNat ≤ 70 then some (c.toNat - 55)
  else none

/-- One step of the string-literal body reader, with the reader for the
remainder passed in as a continuation; non-recursive, so that it unfolds
cheaply in proofs. -/
def parseStrF (p : List Char → Option (List Char × List Char)) :
    List Char → Option (List Char × List Char)
  | [] => none
  | c :: rest =>
    if c = '"' then some ([], rest)
    else if c = '\\' then
      match rest with
      | '"' :: r => (p r).map (fun q => ('"' :: q.1, q.2))
      | '\\' :: r => (p r).map (fun q => ('\\' :: q.1, q.2))
      | 'b' :: r => (p r).map (fun q => ('\x08' :: q.1, q.2))
      | 'f' :: r => (p r).map (fun q => ('\x0c' :: q.1, q.2))
      | 'n' :: r => (p r).map (fun q => ('\n' :: q.1, q.2))
      | 'r' :: r => (p r).map (fun q => ('\r' :: q.1, q.2))
      | 't' :: r => (p r).map (fun q => ('\t' :: q.1, q.2))
      | 'u' :: a :: b :: c2 :: d :: r =>
        match hexVal a, hexVal b, hexVal c2, hexVal d with
        | some x, some y, some z, some w =>
          (p r).map (fun q => (Char.ofNat (((x * 16 + y) * 16 + z) * 16 + w) :: q.1, q.2))
        | _, _, _, _ => none
      | _ => none
    else (p rest).map (fun q => (c :: q.1, q.2))

/-- Fuelled reader for the body of a JSON string literal (after the opening
quote), returning the decoded characters and the input after the closing
quote. -/
def parseStrS : Nat → List Char → Option (List Char × List Char)
  | 0, _ => none
  | fuel + 1, cs => parseStrF (parseStrS fuel) cs

/-- Reader for the body of a JSON string literal; the input length bounds
the number of decoded characters, so it is enough fuel. -/
def parseStr (cs : List Char) : Option (List Char × List Char) :=
  parseStrS (cs.length + 1) cs

/-- Reader for a run of decimal digits, accumulating their value. -/
def grabDigits : List Char → Nat → Nat × List Char
  | [], acc => (acc, [])
  | c :: cs, acc =>
    if isDigitC c then grabDigits cs (acc * 10 + (c.toNat - 48)) else (acc, c :: cs)

/-- One step of the value reader, with the two collection readers passed in
as continuations; non-recursive, so that it unfolds cheaply in proofs. -/
def parseValF (pE : List Char → Option (List Json × List Char))
    (pM : List Char → Option (List (String × Json) × List Char)) :
    List Char → Option (Json × List Char)
  | [] => none
  | c :: rest =>
    if c = 'n' then
      match rest with
      | 'u' :: 'l' :: 'l' :: r => some (.null, r)
      | _ => none
    else if c = 't' then
      match rest with
      | 'r' :: 'u' :: 'e' :: r => some (.bool true, r)
      | _ => none
    else if c = 'f' then
      match rest with
      | 'a' :: 'l' :: 's' :: 'e' :: r => some (.bool false, r)
      | _ => none
    else if c = '"' then
      (parseStr rest).map (fun p => (.str (String.mk p.1), p.2))
    else if c = '[' then
      (pE rest).map (fun p => (.arr p.1, p.2))
    else if c = '\x7b' then
      (pM rest).map (fun p => (.obj p.1, p.2))
    else if c = '-' then
      match rest with
      | d :: r2 =>
        if isDigitC d then
          let p := grabDigits r2 (d.toNat - 48)
          some (.num (-(p.1 : Int)), p.2)
        else none
      | [] => none
    else if isDigitC c then
      let p := grabDigits rest (c.toNat - 48)
      some (.num (p.1 : Int), p.2)
    else none

/-- One step of the array-elements reader, continuations passed in. -/
def parseElemsF (pV : List Char → Option (Json × List Char))
    (pE : List Char → Option (List Json × List Char)) :
    List Char → Option (List Json × List Char)
  | [] => none
  | c :: r =>
    if c = ']' then some ([], r)
    else
      match pV (c :: r) with
      | none => none
      | some (j, r1) =>
        match r1 with
        | ']' :: r2 => some ([j], r2)
        | ',' :: ' ' :: r2 => (pE r2).map (fun p => (j :: p.1, p.2))
        | _ => none

/-- One step of the object-members reader, continuations passed in. -/
def parseMembersF (pV : List Char → Option (Json × List Char))
    (pM : List Char → Option (List (String × Json) × List Char)) :
    List Char → Option (List (String × Json) × List Char)
  | [] => none
  | c :: r =>
    if c = '\x7d' then some ([], r)
    else if c = '"' then
      match parseStr r with
      | none => none
      | some (k, r1) =>
        match r1 with
        | ':' :: ' ' :: r2 =>
          match pV r2 with
          | none => none
          | some (v, r3) =>
            match r3 with
            | '\x7d' :: r4 => some ([(String.mk k, v)], r4)
            | ',' :: ' ' :: r4 =>
              (pM r4).map (fun p => ((String.mk k, v) :: p.1, p.2))
            | _ => none
        | _ => none
    else none

mutual

/-- Reader for one JSON value, for the exact textual format `dumpsL`
produces (the Python `json.loads` accepts a whitespace superset of it). -/
def parseVal : Nat → List Char → Option (Json × List Char)
  | 0, _ => none
  | fuel + 1, cs => parseValF (parseElems fuel) (parseMembers fuel) cs

/-- Reader for array elements up to and including the closing bracket. -/
def parseElems : Nat → List Char → Option (List Json × List Char)
  | 0, _ => none
  | fuel + 1, cs => parseElemsF (parseVal fuel) (parseElems fuel) cs

/-- Reader for object members up to and including the closing brace. -/
def parseMembers : Nat → List Char → Option (List (String × Json) × List Char)
  | 0, _ => none
  | fuel + 1, cs => parseMembersF (parseVal fuel) (parseMembers fuel) cs

end

/-- Reader for a complete document; the model of `json.loads` on the texts
that `dumps` produces. -/
def loads (s : String) : Option Json :=
  match parseVal (2 * s.data.length) s.data with
  | some (j, []) => some j
  | _ => none

/-- Lookup in an ordered field list, later bindings shadowing earlier ones,
as in a Python dict built in insertion order. -/
def dictGet : List (String × Json) → String → Option Json
  | [], _ => none
  | p :: fs, k =>
    match dictGet fs k with
    | some v => some v
    | none => if p.1 = k then some p.2 else none

/-- State of one theme source file `<themes-root>/<slug>/theme.json`:
missing, present but not valid JSON, or present with a parse result. -/
inductive FileContent where
  | absent
  | malformed
  | valid (j : Json)

/-- One row of the generated `INSERT`, before SQL formatting: the extracted
display fields, the serialized document, and the sort position. -/
structure Row where
  name : String
  slug : String
  category : String
  description : String
  presetData : String
  sortOrder : Nat

/-- Model of `theme_data.get("meta", {})`: requires the document to be an
object (otherwise the Python attribute access fails), defaults to an empty
object. -/
def getMeta : Json → Option Json
  | .obj fields => some ((dictGet fields "meta").getD (.obj []))
  | _ => none

/-- Model of `meta.get(key, default)` for the three display fields: requires
`meta` to be an object, and the field (when present) to be a string. A
present non-string field is modelled as a failure; in CPython the `name` and
`description` cases fail there too (`.replace` on a non-str), while a
non-string `category` would be stringified by the f-string — that case is
outside the model and outside every claim. -/
def getStrField (meta : Json) (k : String) (dflt : String) : Option String :=
  match meta with
  | .obj mf =>
    match dictGet mf k with
    | none => some dflt
    | some (.str s) => some s
    | some _ => none
  | _ => none

/-- Model of the per-theme body of the loop in `generate_sql`: extract
`meta` and the three display fields with their defaults, serialize the whole
document, record the sort position `idx + 7`. -/
def mkRow (idx : Nat) (slug : String) (j : Json) : Option Row :=
  match getMeta j with
  | none => none
  | some meta =>
    match getStrField meta "name" slug, getStrField meta "category" "professional",
        getStrField meta "description" "" with
    | some name, some category, some description =>
      some ⟨name, slug, category, description, dumps j, idx + 7⟩
    | _, _, _ => none

/-- Escape of one character for a single-quoted SQL literal: a single quote
is doubled, everything else is kept. -/
def sqlEscChar (c : Char) : List Char :=
  if c = squote then [c, c] else [c]

/-- Model of Python `s.replace("\x27", "\x27\x27")` on the character list:
each single quote is doubled. -/
def sqlEscList : List Char → List Char
  | [] => []
  | c :: cs => sqlEscChar c ++ sqlEscList cs

/-- Model of `s.replace` as used on `name` and `description`. -/
def sqlEscape (s : String) : String := String.mk (sqlEscList s.data)

/-- Inverse direction of the quote-doubling: collapse each doubled quote. -/
def sqlUnesc : List Char → List Char
  | [] => []
  | [c] => [c]
  | c :: c2 :: cs =>
    if c = squote ∧ c2 = squote then c :: sqlUnesc cs
    else c :: sqlUnesc (c2 :: cs)

/-- Number of single-quote characters in a character list. -/
def countQ (l : List Char) : Nat := l.countP (fun c => c = squote)

/-- Model of the f-string that formats one SQL row tuple in `generate_sql`. -/
def mkValue (r : Row) : String :=
  "(\n    " ++ sq ++ sqlEscape r.name ++ sq ++ ",\n    "
  ++ sq ++ r.slug ++ sq ++ ",\n    "
  ++ sq ++ r.category ++ sq ++ ",\n    "
  ++ sq ++ sqlEscape r.description ++ sq ++ ",\n    $$"
  ++ r.presetData ++ "$$::jsonb,\n    "
  ++ natToString r.sortOrder ++ "\n)"

/-- The part of a formatted row tuple that precedes the quoted category. -/
def mkValuePre (r : Row) : String :=
  "(\n    " ++ sq ++ sqlEscape r.name ++ sq ++ ",\n    "
  ++ sq ++ r.slug ++ sq ++ ",\n    "

/-- The part of a formatted row tuple that follows the quoted category. -/
def mkValueSuf (r : Row) : String :=
  ",\n    " ++ sq ++ sqlEscape r.description ++ sq ++ ",\n    $$"
  ++ r.presetData ++ "$$::jsonb,\n    "
  ++ natToString r.sortOrder ++ "\n)"

/-- Warning printed for a missing theme file, with identifier and path. -/
def warningMsg (themesDir slug : String) : String :=
  "Warning: Theme " ++ slug ++ " not found at " ++ themesDir ++ "/" ++ slug ++ "/theme.json"

/-- The fixed ordered list `THEMES_TO_SEED`. -/
def THEMES_TO_SEED : List String :=
  ["modern-bistro", "warm-comfort", "vibrant-energy", "elegant-simplicity",
   "urban-fresh", "coastal-breeze", "spicy-fusion", "garden-fresh",
   "premium-dark", "playful-pop"]

/-- Model of Python `enumerate` starting at `n`. -/
def enumL : Nat → List String → List (Nat × String)
  | _, [] => []
  | n, a :: as => (n, a) :: enumL (n + 1) as

/-- Result of the per-theme loop: warnings printed so far, formatted row
tuples collected in `values`, and whether the loop ran to completion
(`ok = false` models an uncaught exception). -/
structure LoopOut where
  warnings : List String
  values : List String
  ok : Bool

/-- Model of the `for idx, slug in enumerate(THEMES_TO_SEED)` loop. A
missing file appends a warning and skips; malformed JSON (or a failing
field extraction) raises, which stops the loop with `ok = false`; a loaded
theme appends its formatted tuple. -/
def loop (themesDir : String) (fs : String → FileContent) : List (Nat × String) → LoopOut
  | [] => ⟨[], [], true⟩
  | (idx, slug) :: rest =>
    match fs slug with
    | .absent =>
      let o := loop themesDir fs rest
      ⟨warningMsg themesDir slug :: o.warnings, o.values, o.ok⟩
    | .malformed => ⟨[], [], false⟩
    | .valid j =>
      match mkRow idx slug j with
      | none => ⟨[], [], false⟩
      | some r =>
        let o := loop themesDir fs rest
        ⟨o.warnings, mkValue r :: o.values, o.ok⟩

/-- The fixed `sql_header` string literal of `generate_sql`. -/
def sqlHeader : String :=
  "-- ============================================================\n-- Migration 078: Seed 10 Production Theme Presets\n-- Date: 2026-01-20\n-- Purpose: Insert production-ready theme templates into theme_presets with Bilingual Support\n-- ============================================================\n\n-- Insert 10 production themes into theme_presets table\nINSERT INTO theme_presets (name, slug, category, description, preset_data, sort_order) VALUES\n"

/-- The fixed `sql_footer` string literal of `generate_sql`. -/
def sqlFooter : String :=
  "\nON CONFLICT (slug) DO UPDATE SET\n    name = EXCLUDED.name,\n    category = EXCLUDED.category,\n    description = EXCLUDED.description,\n    preset_data = EXCLUDED.preset_data,\n    sort_order = EXCLUDED.sort_order,\n    updated_at = CURRENT_TIMESTAMP;\n"

/-- Model of Python `sep.join(xs)`. -/
def pyJoin (sep : String) : List String → String
  | [] => ""
  | [x] => x
  | x :: xs => x ++ sep ++ pyJoin sep xs

/-- Outcome of one run of `generate_sql`: the state of the migration file
after the run (`prev` is its state before), the warnings printed, and
whether the run succeeded. -/
structure RunResult where
  outFile : Option String
  warnings : List String
  ok : Bool

/-- Model of `generate_sql()`: run the loop over the enumerated fixed list;
on completion splice the joined tuples between header and footer and write
the file, on an exception leave the previous file state untouched (the
output file is only opened after the loop). -/
def run (themesDir : String) (fs : String → FileContent) (prev : Option String) : RunResult :=
  let o := loop themesDir fs (enumL 0 THEMES_TO_SEED)
  if o.ok then
    ⟨some (sqlHeader ++ pyJoin ",\n" o.values ++ sqlFooter), o.warnings, true⟩
  else
    ⟨prev, o.warnings, false⟩

/-- Whether a file state is a successfully parsed document. -/
def isValidF : FileContent → Bool
  | .valid _ => true
  | _ => false

/-- Whether one enumerated entry gets through its loop iteration without an
exception. -/
def entryOk (fs : String → FileContent) (e : Nat × String) : Bool :=
  match fs e.2 with
  | .absent => true
  | .malformed => false
  | .valid j => (mkRow e.1 e.2 j).isSome

/-- Every iteration of the loop over the fixed list succeeds. -/
def okFs (fs : String → FileContent) : Prop :=
  ∀ e ∈ enumL 0 THEMES_TO_SEED, entryOk fs e = true

instance okFsDecidable (fs : String → FileContent) : Decidable (okFs fs) := by
  unfold okFs
  infer_instance

/-- Rows produced for an entry list: one per successfully loaded theme. -/
def rowsOfL (fs : String → FileContent) (l : List (Nat × String)) : List Row :=
  l.filterMap (fun e =>
    match fs e.2 with
    | .valid j => mkRow e.1 e.2 j
    | _ => none)

/-- Rows produced by a run over the fixed list. -/
def rowsOf (fs : String → FileContent) : List Row :=
  rowsOfL fs (enumL 0 THEMES_TO_SEED)

/-- Warnings produced for an entry list: one per absent file. -/
def warnsOfL (themesDir : String) (fs : String → FileContent) (l : List (Nat × String)) : List String :=
  l.filterMap (fun e =>
    match fs e.2 with
    | .absent => some (warningMsg themesDir e.2)
    | _ => none)

/-- Fixture: a filesystem with every theme file absent. -/
def fsAllAbsent : String → FileContent := fun _ => .absent

/-- Fixture: a filesystem where every theme file holds the empty object. -/
def fsAllEmptyObj : String → FileContent := fun _ => .valid (.obj [])

/-- Fixture: all files hold the empty object except `garden-fresh`, which is
missing. -/
def fsNine : String → FileContent := fun s =>
  if s = "garden-fresh" then .absent else .valid (.obj [])

/-- Fixture: all files hold the empty object except `spicy-fusion`, which is
malformed. -/
def fsOneBad : String → FileContent := fun s =>
  if s = "spicy-fusion" then .malformed else .valid (.obj [])

/-- Fixture: a category string containing a single quote. -/
def catWithQuote : String := "chef" ++ sq ++ "s picks"

/-- Fixture: a document whose `meta.category` contains a single quote. -/
def jQuoteCat : Json :=
  .obj [("meta", .obj [("category", .str catWithQuote)])]

/-- Fixture: the row extracted from the empty object for the first slug. -/
def row0 : Row :=
  ⟨"modern-bistro", "modern-bistro", "professional", "", dumps (.obj []), 7⟩

/-- Fixture: a name with a single quote, as in the spec example. -/
def chefName : String := "Chef" ++ sq ++ "s Table"

/-- Fixture: a document with a quoted name and description. -/
def jChef : Json :=
  .obj [("meta", .obj [("name", .str chefName), ("description", .str chefName)])]

/-- Round-trip property of one document: the reader, given enough fuel,
consumes exactly its serialization and returns it, for any continuation
that cannot extend a numeral. -/
def RT (j : Json) : Prop :=
  ∀ fuel rest, jsize j ≤ fuel → numSafe rest = true →
    parseVal fuel (dumpsL j ++ rest) = some (j, rest)

/-! ### Decimal digits -/

theorem hexDig_digit (n : Nat) (h : n < 10) : isDigitC (hexDig n) = true := by
  interval_cases n <;> decide

theorem hexDig_toNat (n : Nat) (h : n < 10) : (hexDig n).toNat = 48 + n := by
  interval_cases n <;> decide

theorem natDigs_cons (n : Nat) : ∃ c cs, natDigs n = c :: cs ∧ isDigitC c = true := by
  induction n using Nat.strong_induction_on with
  | _ n ih =>
    by_cases h : n < 10
    · exact ⟨hexDig n, [], by rw [natDigs]; simp [h], hexDig_digit n h⟩
    · obtain ⟨c, cs, hc, hd⟩ := ih (n / 10) (Nat.div_lt_self (by omega) (by omega))
      exact ⟨c, cs ++ [hexDig (n % 10)], by rw [natDigs]; simp [h, hc], hd⟩

theorem grabDigits_append (n : Nat) :
    ∀ acc rest, grabDigits (natDigs n ++ rest) acc
      = grabDigits rest (acc * 10 ^ (natDigs n).length + n) := by
  induction n using Nat.strong_induction_on with
  | _ n ih =>
    intro acc rest
    by_cases h : n < 10
    · rw [natDigs]
      simp only [dif_pos h, List.singleton_append, List.length_singleton, pow_one]
      rw [grabDigits, if_pos (hexDig_digit n h), hexDig_toNat n h]
      congr 1
      omega
    · have hd : n / 10 < n := Nat.div_lt_self (by omega) (by omega)
      rw [natDigs]
      simp only [dif_neg h, List.append_assoc, List.singleton_append, List.length_append,
        List.length_singleton]
      rw [ih (n / 10) hd]
      rw [grabDigits, if_pos (hexDig_digit (n % 10) (by omega)), hexDig_toNat (n % 10) (by omega)]
      congr 1
      have hq : (acc * 10 ^ (natDigs (n / 10)).length + n / 10) * 10 + (48 + n % 10 - 48)
          = acc * (10 ^ (natDigs (n / 10)).length * 10) + (n / 10 * 10 + n % 10) := by ring_nf; omega
      rw [hq, ← pow_succ]
      omega

theorem grabDigits_stop (rest : List Char) (h : numSafe rest = true) (acc : Nat) :
    grabDigits rest acc = (acc, rest) := by
  cases rest with
  | nil => rfl
  | cons c cs =>
    simp only [numSafe, Bool.not_eq_true'] at h
    rw [grabDigits, if_neg (by simp [h])]

theorem grabDigits_natDigs (n : Nat) (rest : List Char) (h : numSafe rest = true) :
    grabDigits (natDigs n ++ rest) 0 = (n, rest) := by
  rw [grabDigits_append, grabDigits_stop rest h]
  norm_num

/-! ### Character classes at the start of a serialized value -/

theorem isDigitC_ne (c : Char) (h : isDigitC c = true) :
    c ≠ 'n' ∧ c ≠ 't' ∧ c ≠ 'f' ∧ c ≠ '"' ∧ c ≠ '[' ∧ c ≠ '\x7b' ∧ c ≠ '-' ∧ c ≠ ']'
      ∧ c ≠ '\x7d' ∧ c ≠ ',' ∧ c ≠ ':' := by
  refine ⟨?_, ?_, ?_, ?_, ?_, ?_, ?_, ?_, ?_, ?_, ?_⟩ <;> rintro rfl <;> exact absurd h (by decide)

theorem parseVal_digit (fuel : Nat) (c : Char) (rest : List Char) (h : isDigitC c = true) :
    parseVal (fuel + 1) (c :: rest)
      = some (.num ((grabDigits rest (c.toNat - 48)).1 : Int), (grabDigits rest (c.toNat - 48)).2) := by
  obtain ⟨h1, h2, h3, h4, h5, h6, h7, -⟩ := isDigitC_ne c h
  simp [parseVal, parseValF, h1, h2, h3, h4, h5, h6, h7, h]

/-! ### String escaping round-trip -/

theorem hexVal_hexDig (n : Nat) (h : n < 16) : hexVal (hexDig n) = some n := by
  interval_cases n <;> decide

theorem parseStrF_plain (p : List Char → Option (List Char × List Char)) (c : Char)
    (rest : List Char) (h1 : ¬c = '"') (h2 : ¬c = '\\') :
    parseStrF p (c :: rest) = (p rest).map (fun q => (c :: q.1, q.2)) := by
  simp [parseStrF, h1, h2]

theorem parseStrF_unicode (p : List Char → Option (List Char × List Char))
    (a b c2 d : Char) (r : List Char) (x y z w : Nat)
    (ha : hexVal a = some x) (hb : hexVal b = some y)
    (hc : hexVal c2 = some z) (hd : hexVal d = some w) :
    parseStrF p ('\\' :: 'u' :: a :: b :: c2 :: d :: r)
      = (p r).map (fun q => (Char.ofNat (((x * 16 + y) * 16 + z) * 16 + w) :: q.1, q.2)) := by
  simp [parseStrF, ha, hb, hc, hd]

theorem parseStrS_esc (s : List Char) :
    ∀ fuel rest, s.length + 1 ≤ fuel →
      parseStrS fuel (escList s ++ ('"' :: rest)) = some (s, rest) := by
  induction s with
  | nil =>
    intro fuel rest hf
    obtain ⟨f, rfl⟩ : ∃ f, fuel = f + 1 := ⟨fuel - 1, by omega⟩
    rfl
  | cons c cs ih =>
    intro fuel rest hf
    obtain ⟨f, rfl⟩ : ∃ f, fuel = f + 1 := ⟨fuel - 1, by omega⟩
    have ihf : parseStrS f (escList cs ++ ('"' :: rest)) = some (cs, rest) :=
      ih f rest (by simp only [List.length_cons] at hf; omega)
    show parseStrS (f + 1) ((escChar c ++ escList cs) ++ ('"' :: rest)) = _
    rw [List.append_assoc]
    by_cases h1 : c = '\\'
    · subst h1
      rw [show escChar '\\' = ['\\', '\\'] from by decide]
      show (parseStrS f (escList cs ++ ('"' :: rest))).map (fun q => ('\\' :: q.1, q.2)) = _
      rw [ihf]; rfl
    by_cases h2 : c = '"'
    · subst h2
      rw [show escChar '"' = ['\\', '"'] from by decide]
      show (parseStrS f (escList cs ++ ('"' :: rest))).map (fun q => ('"' :: q.1, q.2)) = _
      rw [ihf]; rfl
    by_cases h3 : c = '\x08'
    · subst h3
      rw [show escChar '\x08' = ['\\', 'b'] from by decide]
      show (parseStrS f (escList cs ++ ('"' :: rest))).map (fun q => ('\x08' :: q.1, q.2)) = _
      rw [ihf]; rfl
    by_cases h4 : c = '\x0c'
    · subst h4
      rw [show escChar '\x0c' = ['\\', 'f'] from by decide]
      show (parseStrS f (escList cs ++ ('"' :: rest))).map (fun q => ('\x0c' :: q.1, q.2)) = _
      rw [ihf]; rfl
    by_cases h5 : c = '\n'
    · subst h5
      rw [show escChar '\n' = ['\\', 'n'] from by decide]
      show (parseStrS f (escList cs ++ ('"' :: rest))).map (fun q => ('\n' :: q.1, q.2)) = _
      rw [ihf]; rfl
    by_cases h6 : c = '\r'
    · subst h6
      rw [show escChar '\r' = ['\\', 'r'] from by decide]
      show (parseStrS f (escList cs ++ ('"' :: rest))).map (fun q => ('\r' :: q.1, q.2)) = _
      rw [ihf]; rfl
    by_cases h7 : c = '\t'
    · subst h7
      rw [show escChar '\t' = ['\\', 't'] from by decide]
      show (parseStrS f (escList cs ++ ('"' :: rest))).map (fun q => ('\t' :: q.1, q.2)) = _
      rw [ihf]; rfl
    by_cases h8 : c.toNat < 32
    · rw [show escChar c = ['\\', 'u', '0', '0', hexDig (c.toNat / 16), hexDig (c.toNat % 16)]
        from by rw [escChar]; simp [h1, h2, h3, h4, h5, h6, h7, h8]]
      simp only [List.cons_append, List.nil_append]
      rw [parseStrS]
      rw [parseStrF_unicode (parseStrS f) '0' '0' (hexDig (c.toNat / 16)) (hexDig (c.toNat % 16))
        (escList cs ++ ('"' :: rest)) 0 0 (c.toNat / 16) (c.toNat % 16)
        (by decide) (by decide) (hexVal_hexDig _ (by omega)) (hexVal_hexDig _ (by omega))]
      rw [ihf]
      simp only [Option.map_some']
      norm_num
      rw [show c.toNat / 16 * 16 + c.toNat % 16 = c.toNat from by omega, Char.ofNat_toNat]
    · rw [show escChar c = [c] from by rw [escChar]; simp [h1, h2, h3, h4, h5, h6, h7, h8]]
      rw [List.singleton_append, parseStrS, parseStrF_plain (parseStrS f) c _ h2 h1, ihf]
      rfl

theorem escList_length (s : List Char) : s.length ≤ (escList s).length := by
  induction s with
  | nil => simp [escList]
  | cons c cs ih =>
    rw [escList, List.length_append, List.length_cons]
    have : 1 ≤ (escChar c).length := by
      rw [escChar]
      repeat' split
      all_goals simp
    omega

theorem parseStr_esc (s rest : List Char) :
    parseStr (escList s ++ ('"' :: rest)) = some (s, rest) := by
  rw [parseStr]
  exact parseStrS_esc s _ rest (by
    have := escList_length s
    simp only [List.length_append, List.length_cons]
    omega)

/-! ### Sizes and a structural induction principle for documents -/

theorem jsize_pos (j : Json) : 1 ≤ jsize j := by
  cases j <;> rw [jsize] <;> omega

theorem jsizeA_pos (es : List Json) : 1 ≤ jsizeA es := by
  cases es with
  | nil => rw [jsizeA]
  | cons e es => rw [jsizeA]; omega

theorem jsizeO_pos (fs : List (String × Json)) : 1 ≤ jsizeO fs := by
  cases fs with
  | nil => rw [jsizeO]
  | cons p fs => obtain ⟨k, v⟩ := p; rw [jsizeO]; omega

theorem jsize_lt_jsizeA (e : Json) (es : List Json) (h : e ∈ es) : jsize e < jsizeA es := by
  induction es with
  | nil => cases h
  | cons a as ih =>
    rcases List.mem_cons.mp h with rfl | h2
    · rw [jsizeA]; have := jsizeA_pos as; omega
    · rw [jsizeA]; have := ih h2; have := jsize_pos a; omega

theorem jsize_lt_jsizeO (p : String × Json) (fs : List (String × Json)) (h : p ∈ fs) :
    jsize p.2 < jsizeO fs := by
  induction fs with
  | nil => cases h
  | cons a as ih =>
    rcases List.mem_cons.mp h with rfl | h2
    · obtain ⟨k, v⟩ := p; dsimp only; rw [jsizeO]; have := jsizeO_pos as; omega
    · obtain ⟨k, v⟩ := a; rw [jsizeO]; have := ih h2; have := jsize_pos v; omega

theorem Json.ind2 (P : Json → Prop)
    (hnull : P .null) (hbool : ∀ b, P (.bool b)) (hnum : ∀ n, P (.num n))
    (hstr : ∀ s, P (.str s))
    (harr : ∀ es, (∀ e ∈ es, P e) → P (.arr es))
    (hobj : ∀ fs, (∀ p ∈ fs, P p.2) → P (.obj fs)) : ∀ j, P j := by
  have H : ∀ n j, jsize j ≤ n → P j := by
    intro n
    induction n with
    | zero => intro j h; have := jsize_pos j; omega
    | succ n ih =>
      intro j h
      cases j with
      | null => exact hnull
      | bool b => exact hbool b
      | num i => exact hnum i
      | str s => exact hstr s
      | arr es =>
        refine harr es (fun e he => ih e ?_)
        have h2 := jsize_lt_jsizeA e es he
        rw [jsize] at h
        omega
      | obj fs =>
        refine hobj fs (fun p hp => ih p.2 ?_)
        have h2 := jsize_lt_jsizeO p fs hp
        rw [jsize] at h
        omega
  exact fun j => H (jsize j) j le_rfl

/-! ### First character of a serialized value -/

theorem dumpsL_head (j : Json) :
    ∃ c cs, dumpsL j = c :: cs ∧
      (c = 'n' ∨ c = 't' ∨ c = 'f' ∨ c = '"' ∨ c = '[' ∨ c = '\x7b' ∨ c = '-'
        ∨ isDigitC c = true) := by
  cases j with
  | null => exact ⟨'n', _, by rw [dumpsL], by tauto⟩
  | bool b =>
    cases b with
    | true => exact ⟨'t', _, by rw [dumpsL]; rfl, by tauto⟩
    | false => exact ⟨'f', _, by rw [dumpsL]; rfl, by tauto⟩
  | num i =>
    by_cases hi : i < 0
    · exact ⟨'-', _, by rw [dumpsL, intChars, if_pos hi], by tauto⟩
    · obtain ⟨c, cs, hc, hd⟩ := natDigs_cons i.natAbs
      exact ⟨c, cs, by rw [dumpsL, intChars, if_neg hi, hc], by tauto⟩
  | str s => exact ⟨'"', _, by rw [dumpsL, encStrL], by tauto⟩
  | arr es => exact ⟨'[', _, by rw [dumpsL], by tauto⟩
  | obj fs => exact ⟨'\x7b', _, by rw [dumpsL], by tauto⟩

theorem dumpsL_head_ne (j : Json) :
    ∃ c cs, dumpsL j = c :: cs ∧ c ≠ ']' ∧ c ≠ '\x7d' := by
  obtain ⟨c, cs, hc, hk⟩ := dumpsL_head j
  refine ⟨c, cs, hc, ?_, ?_⟩ <;>
    rcases hk with rfl | rfl | rfl | rfl | rfl | rfl | rfl | hd <;>
    first
      | decide
      | (obtain ⟨-, -, -, -, -, -, -, h8, h9, -⟩ := isDigitC_ne c hd; assumption)

/-! ### One-step reduction helpers for the value reader -/

theorem parseValF_digit (pE : List Char → Option (List Json × List Char))
    (pM : List Char → Option (List (String × Json) × List Char))
    (c : Char) (rest : List Char) (h : isDigitC c = true) :
    parseValF pE pM (c :: rest)
      = some (.num ((grabDigits rest (c.toNat - 48)).1 : Int),
          (grabDigits rest (c.toNat - 48)).2) := by
  obtain ⟨h1, h2, h3, h4, h5, h6, h7, -⟩ := isDigitC_ne c h
  simp [parseValF, h1, h2, h3, h4, h5, h6, h7, h]

theorem parseValF_neg (pE : List Char → Option (List Json × List Char))
    (pM : List Char → Option (List (String × Json) × List Char))
    (d : Char) (r2 : List Char) (hd : isDigitC d = true) :
    parseValF pE pM ('-' :: d :: r2)
      = some (.num (-((grabDigits r2 (d.toNat - 48)).1 : Int)),
          (grabDigits r2 (d.toNat - 48)).2) := by
  simp [parseValF, hd]

theorem parseElemsF_val (pV : List Char → Option (Json × List Char))
    (pE : List Char → Option (List Json × List Char))
    (c : Char) (r : List Char) (h : ¬c = ']') :
    parseElemsF pV pE (c :: r)
      = match pV (c :: r) with
        | none => none
        | some (j, r1) =>
          match r1 with
          | ']' :: r2 => some ([j], r2)
          | ',' :: ' ' :: r2 => (pE r2).map (fun p => (j :: p.1, p.2))
          | _ => none := by
  simp [parseElemsF, h]

theorem parseMembersF_key (pV : List Char → Option (Json × List Char))
    (pM : List Char → Option (List (String × Json) × List Char))
    (r : List Char) :
    parseMembersF pV pM ('"' :: r)
      = match parseStr r with
        | none => none
        | some (k, r1) =>
          match r1 with
          | ':' :: ' ' :: r2 =>
            match pV r2 with
            | none => none
            | some (v, r3) =>
              match r3 with
              | '\x7d' :: r4 => some ([(String.mk k, v)], r4)
              | ',' :: ' ' :: r4 =>
                (pM r4).map (fun p => ((String.mk k, v) :: p.1, p.2))
              | _ => none
          | _ => none := rfl

/-! ### Round-trip of the serialization through the reader -/

theorem dumpsA_cons2 (e e2 : Json) (es : List Json) :
    dumpsA (e :: e2 :: es) = dumpsL e ++ (',' :: ' ' :: dumpsA (e2 :: es)) := by
  rw [dumpsA]
  intro h
  cases h

theorem dumpsO_cons2 (k : String) (v : Json) (p2 : String × Json) (fs : List (String × Json)) :
    dumpsO ((k, v) :: p2 :: fs)
      = (encStrL k.data ++ (':' :: ' ' :: dumpsL v)) ++ (',' :: ' ' :: dumpsO (p2 :: fs)) := by
  rw [dumpsO]
  intro h
  cases h

theorem rt_elems : ∀ es : List Json, (∀ e ∈ es, RT e) →
    ∀ fuel rest, jsizeA es ≤ fuel →
      parseElems fuel (dumpsA es ++ (']' :: rest)) = some (es, rest) := by
  intro es
  induction es with
  | nil =>
    intro _ fuel rest hf
    obtain ⟨f, rfl⟩ : ∃ f, fuel = f + 1 := ⟨fuel - 1, by rw [jsizeA] at hf; omega⟩
    rw [show dumpsA ([] : List Json) = [] from by rw [dumpsA], List.nil_append, parseElems]
    rfl
  | cons e es' ih =>
    intro hes fuel rest hf
    rw [jsizeA] at hf
    have hep := jsize_pos e
    have hap := jsizeA_pos es'
    obtain ⟨f, rfl⟩ : ∃ f, fuel = f + 1 := ⟨fuel - 1, by omega⟩
    have hre : RT e := hes e (List.mem_cons_self e es')
    have hf2 : jsize e ≤ f := by omega
    obtain ⟨c, cs, hc, hne1, hne2⟩ := dumpsL_head_ne e
    cases es' with
    | nil =>
      rw [show dumpsA [e] = dumpsL e from by rw [dumpsA], parseElems, hc, List.cons_append,
        parseElemsF_val _ _ _ _ hne1, ← List.cons_append, ← hc,
        hre f (']' :: rest) hf2 rfl]
      rfl
    | cons e2 es'' =>
      rw [dumpsA_cons2, List.append_assoc]
      simp only [List.cons_append]
      rw [parseElems, hc, List.cons_append, parseElemsF_val _ _ _ _ hne1, ← List.cons_append,
        ← hc, hre f (',' :: ' ' :: (dumpsA (e2 :: es'') ++ (']' :: rest))) hf2 rfl]
      show (parseElems f (dumpsA (e2 :: es'') ++ (']' :: rest))).map (fun p => (e :: p.1, p.2))
        = some (e :: e2 :: es'', rest)
      rw [ih (fun x hx => hes x (List.mem_cons_of_mem e hx)) f rest (by rw [jsizeA] at hf ⊢; omega)]
      rfl

theorem rt_members : ∀ fs : List (String × Json), (∀ p ∈ fs, RT p.2) →
    ∀ fuel rest, jsizeO fs ≤ fuel →
      parseMembers fuel (dumpsO fs ++ ('\x7d' :: rest)) = some (fs, rest) := by
  intro fs
  induction fs with
  | nil =>
    intro _ fuel rest hf
    obtain ⟨f, rfl⟩ : ∃ f, fuel = f + 1 := ⟨fuel - 1, by rw [jsizeO] at hf; omega⟩
    rw [show dumpsO ([] : List (String × Json)) = [] from by rw [dumpsO], List.nil_append,
      parseMembers]
    rfl
  | cons p fs' ih =>
    intro hps fuel rest hf
    obtain ⟨k, v⟩ := p
    rw [jsizeO] at hf
    have hvp := jsize_pos v
    have hop := jsizeO_pos fs'
    obtain ⟨f, rfl⟩ : ∃ f, fuel = f + 1 := ⟨fuel - 1, by omega⟩
    have hrv : RT v := hps (k, v) (List.mem_cons_self (k, v) fs')
    have hf2 : jsize v ≤ f := by omega
    cases fs' with
    | nil =>
      rw [show dumpsO [(k, v)] = encStrL k.data ++ (':' :: ' ' :: dumpsL v) from by rw [dumpsO],
        encStrL, parseMembers]
      simp only [List.cons_append, List.append_assoc, List.nil_append]
      rw [parseMembersF_key, parseStr_esc k.data (':' :: ' ' :: (dumpsL v ++ '\x7d' :: rest))]
      show (match parseVal f (dumpsL v ++ ('\x7d' :: rest)) with
        | none => none
        | some (w, r3) =>
          match r3 with
          | '\x7d' :: r4 => some ([(String.mk k.data, w)], r4)
          | ',' :: ' ' :: r4 =>
            (parseMembers f r4).map (fun q => ((String.mk k.data, w) :: q.1, q.2))
          | _ => none) = some ([(k, v)], rest)
      rw [hrv f ('\x7d' :: rest) hf2 rfl]
      rfl
    | cons p2 fs'' =>
      rw [dumpsO_cons2, encStrL, parseMembers]
      simp only [List.cons_append, List.append_assoc, List.nil_append]
      rw [parseMembersF_key,
        parseStr_esc k.data (':' :: ' ' :: (dumpsL v ++ (',' :: ' ' :: (dumpsO (p2 :: fs'') ++ '\x7d' :: rest))))]
      show (match parseVal f (dumpsL v ++ (',' :: ' ' :: (dumpsO (p2 :: fs'') ++ '\x7d' :: rest))) with
        | none => none
        | some (w, r3) =>
          match r3 with
          | '\x7d' :: r4 => some ([(String.mk k.data, w)], r4)
          | ',' :: ' ' :: r4 =>
            (parseMembers f r4).map (fun q => ((String.mk k.data, w) :: q.1, q.2))
          | _ => none) = some ((k, v) :: p2 :: fs'', rest)
      rw [hrv f (',' :: ' ' :: (dumpsO (p2 :: fs'') ++ ('\x7d' :: rest))) hf2 rfl]
      show (parseMembers f (dumpsO (p2 :: fs'') ++ ('\x7d' :: rest))).map
          (fun q => ((k, v) :: q.1, q.2)) = some ((k, v) :: p2 :: fs'', rest)
      rw [ih (fun x hx => hps x (List.mem_cons_of_mem (k, v) hx)) f rest
        (by rw [jsizeO] at hf ⊢; omega)]
      rfl

theorem dumpsL_length_pos (j : Json) : 1 ≤ (dumpsL j).length := by
  obtain ⟨c, cs, hc, -⟩ := dumpsL_head j
  rw [hc]
  simp

theorem jsizeA_le_len (es : List Json) (h : ∀ e ∈ es, jsize e ≤ 2 * (dumpsL e).length) :
    jsizeA es ≤ 2 * (dumpsA es).length + 2 := by
  induction es with
  | nil => rw [jsizeA]; omega
  | cons e es' ih =>
    have he := h e (List.mem_cons_self e es')
    cases es' with
    | nil =>
      rw [jsizeA, jsizeA, show dumpsA [e] = dumpsL e from by rw [dumpsA]]
      omega
    | cons e2 es'' =>
      have ih2 := ih (fun x hx => h x (List.mem_cons_of_mem e hx))
      rw [jsizeA, dumpsA_cons2]
      simp only [List.length_append, List.length_cons]
      omega

theorem jsizeO_le_len (fs : List (String × Json))
    (h : ∀ p ∈ fs, jsize p.2 ≤ 2 * (dumpsL p.2).length) :
    jsizeO fs ≤ 2 * (dumpsO fs).length + 2 := by
  induction fs with
  | nil => rw [jsizeO]; omega
  | cons p fs' ih =>
    obtain ⟨k, v⟩ := p
    have hv := h (k, v) (List.mem_cons_self (k, v) fs')
    dsimp only at hv
    cases fs' with
    | nil =>
      rw [jsizeO, jsizeO,
        show dumpsO [(k, v)] = encStrL k.data ++ (':' :: ' ' :: dumpsL v) from by rw [dumpsO]]
      simp only [List.length_append, List.length_cons]
      omega
    | cons p2 fs'' =>
      have ih2 := ih (fun x hx => h x (List.mem_cons_of_mem (k, v) hx))
      rw [jsizeO, dumpsO_cons2]
      simp only [List.length_append, List.length_cons]
      omega

theorem jsize_le_len (j : Json) : jsize j ≤ 2 * (dumpsL j).length := by
  induction j using Json.ind2 with
  | hnull => rw [jsize]; have := dumpsL_length_pos .null; omega
  | hbool b => rw [jsize]; have := dumpsL_length_pos (.bool b); omega
  | hnum i => rw [jsize]; have := dumpsL_length_pos (.num i); omega
  | hstr s => rw [jsize]; have := dumpsL_length_pos (.str s); omega
  | harr es hes =>
    rw [jsize, show dumpsL (.arr es) = '[' :: (dumpsA es ++ [']']) from by rw [dumpsL]]
    have := jsizeA_le_len es hes
    simp only [List.length_cons, List.length_append, List.length_singleton]
    omega
  | hobj fs hfs =>
    rw [jsize, show dumpsL (.obj fs) = '\x7b' :: (dumpsO fs ++ ['\x7d']) from by rw [dumpsL]]
    have := jsizeO_le_len fs hfs
    simp only [List.length_cons, List.length_append, List.length_singleton]
    omega

theorem rt_all (j : Json) : RT j := by
  induction j using Json.ind2 with
  | hnull =>
    intro fuel rest hf _
    rw [jsize] at hf
    obtain ⟨f, rfl⟩ : ∃ f, fuel = f + 1 := ⟨fuel - 1, by omega⟩
    rw [show dumpsL .null = ['n', 'u', 'l', 'l'] from by rw [dumpsL]]
    rfl
  | hbool b =>
    intro fuel rest hf _
    rw [jsize] at hf
    obtain ⟨f, rfl⟩ : ∃ f, fuel = f + 1 := ⟨fuel - 1, by omega⟩
    cases b with
    | true => rw [show dumpsL (.bool true) = ['t', 'r', 'u', 'e'] from by rw [dumpsL]; rfl]; rfl
    | false =>
      rw [show dumpsL (.bool false) = ['f', 'a', 'l', 's', 'e'] from by rw [dumpsL]; rfl]; rfl
  | hnum i =>
    intro fuel rest hf hns
    rw [jsize] at hf
    obtain ⟨f, rfl⟩ : ∃ f, fuel = f + 1 := ⟨fuel - 1, by omega⟩
    by_cases hi : i < 0
    · rw [show dumpsL (.num i) = intChars i from by rw [dumpsL], intChars, if_pos hi]
      obtain ⟨c, cs, hc, hd⟩ := natDigs_cons i.natAbs
      have key : grabDigits (cs ++ rest) (c.toNat - 48) = (i.natAbs, rest) := by
        have h0 := grabDigits_natDigs i.natAbs rest hns
        rw [hc, List.cons_append, grabDigits, if_pos hd] at h0
        simpa using h0
      rw [List.cons_append, hc, List.cons_append, parseVal, parseValF_neg _ _ c _ hd, key]
      have : -((i.natAbs : Int)) = i := by omega
      rw [this]
    · rw [show dumpsL (.num i) = intChars i from by rw [dumpsL], intChars, if_neg hi]
      obtain ⟨c, cs, hc, hd⟩ := natDigs_cons i.natAbs
      have key : grabDigits (cs ++ rest) (c.toNat - 48) = (i.natAbs, rest) := by
        have h0 := grabDigits_natDigs i.natAbs rest hns
        rw [hc, List.cons_append, grabDigits, if_pos hd] at h0
        simpa using h0
      rw [hc, List.cons_append, parseVal, parseValF_digit _ _ c _ hd, key]
      have : ((i.natAbs : Int)) = i := by omega
      rw [this]
  | hstr s =>
    intro fuel rest hf _
    rw [jsize] at hf
    obtain ⟨f, rfl⟩ : ∃ f, fuel = f + 1 := ⟨fuel - 1, by omega⟩
    rw [show dumpsL (.str s) = encStrL s.data from by rw [dumpsL], encStrL]
    simp only [List.cons_append, List.append_assoc, List.nil_append, List.singleton_append]
    rw [parseVal]
    show (parseStr (escList s.data ++ ('"' :: rest))).map
        (fun p => (Json.str (String.mk p.1), p.2)) = some (.str s, rest)
    rw [parseStr_esc]
    rfl
  | harr es hes =>
    intro fuel rest hf _
    rw [jsize] at hf
    obtain ⟨f, rfl⟩ : ∃ f, fuel = f + 1 := ⟨fuel - 1, by have := jsizeA_pos es; omega⟩
    rw [show dumpsL (.arr es) = '[' :: (dumpsA es ++ [']']) from by rw [dumpsL]]
    simp only [List.cons_append, List.append_assoc, List.singleton_append]
    rw [parseVal]
    show (parseElems f (dumpsA es ++ (']' :: rest))).map (fun p => (Json.arr p.1, p.2))
      = some (.arr es, rest)
    rw [rt_elems es hes f rest (by omega)]
    rfl
  | hobj fs hfs =>
    intro fuel rest hf _
    rw [jsize] at hf
    obtain ⟨f, rfl⟩ : ∃ f, fuel = f + 1 := ⟨fuel - 1, by have := jsizeO_pos fs; omega⟩
    rw [show dumpsL (.obj fs) = '\x7b' :: (dumpsO fs ++ ['\x7d']) from by rw [dumpsL]]
    simp only [List.cons_append, List.append_assoc, List.singleton_append]
    rw [parseVal]
    show (parseMembers f (dumpsO fs ++ ('\x7d' :: rest))).map (fun p => (Json.obj p.1, p.2))
      = some (.obj fs, rest)
    rw [rt_members fs hfs f rest (by omega)]
    rfl

theorem loads_dumps (j : Json) : loads (dumps j) = some j := by
  have h := rt_all j (2 * (dumpsL j).length) []
    (by have := jsize_le_len j; omega) rfl
  rw [List.append_nil] at h
  show (match parseVal (2 * (dumpsL j).length) (dumpsL j) with
    | some (j2, []) => some j2
    | _ => none) = some j
  rw [h]

/-! ### The generation pass -/

theorem mkRow_elim {idx : Nat} {slug : String} {j : Json} {r : Row}
    (h : mkRow idx slug j = some r) :
    ∃ meta name category description,
      getMeta j = some meta
      ∧ getStrField meta "name" slug = some name
      ∧ getStrField meta "category" "professional" = some category
      ∧ getStrField meta "description" "" = some description
      ∧ r = ⟨name, slug, category, description, dumps j, idx + 7⟩ := by
  rw [mkRow] at h
  cases hm : getMeta j with
  | none => rw [hm] at h; cases h
  | some meta =>
    rw [hm] at h
    dsimp only at h
    cases hn : getStrField meta "name" slug with
    | none => rw [hn] at h; cases h
    | some name =>
      rw [hn] at h
      cases hc : getStrField meta "category" "professional" with
      | none => rw [hc] at h; simp at h
      | some cat =>
        rw [hc] at h
        cases hd : getStrField meta "description" "" with
        | none => rw [hd] at h; simp at h
        | some desc =>
          rw [hd] at h
          simp only [Option.some.injEq] at h
          exact ⟨meta, name, cat, desc, rfl, hn, hc, hd, h.symm⟩

theorem mkRow_some (idx : Nat) (slug : String) (j : Json) (r : Row)
    (h : mkRow idx slug j = some r) :
    r.slug = slug ∧ r.sortOrder = idx + 7 ∧ r.presetData = dumps j := by
  obtain ⟨meta, name, cat, desc, -, -, -, -, rfl⟩ := mkRow_elim h
  exact ⟨rfl, rfl, rfl⟩

theorem loop_ok (themesDir : String) (fs : String → FileContent) :
    ∀ l : List (Nat × String), (∀ e ∈ l, entryOk fs e = true) →
      loop themesDir fs l = ⟨warnsOfL themesDir fs l, (rowsOfL fs l).map mkValue, true⟩ := by
  intro l
  induction l with
  | nil => intro _; rfl
  | cons e l' ih =>
    intro h
    obtain ⟨idx, slug⟩ := e
    have ih2 := ih (fun x hx => h x (List.mem_cons_of_mem (idx, slug) hx))
    rw [loop, warnsOfL, rowsOfL, List.filterMap_cons, List.filterMap_cons]
    dsimp only
    have he := h (idx, slug) (List.mem_cons_self (idx, slug) l')
    rw [entryOk] at he
    dsimp only at he
    cases hf : fs slug with
    | absent =>
      rw [ih2]
      rfl
    | malformed => rw [hf] at he; simp at he
    | valid j =>
      rw [hf] at he
      dsimp only at he
      cases hr : mkRow idx slug j with
      | none => rw [hr] at he; simp at he
      | some r =>
        dsimp only
        rw [hr, ih2]
        rfl

theorem loop_fail (themesDir : String) (fs : String → FileContent) :
    ∀ l : List (Nat × String), (∃ e ∈ l, fs e.2 = .malformed) →
      (loop themesDir fs l).ok = false := by
  intro l
  induction l with
  | nil => rintro ⟨e, he, -⟩; cases he
  | cons a l' ih =>
    rintro ⟨e, he, hm⟩
    obtain ⟨idx, slug⟩ := a
    rw [loop]
    cases hf : fs slug with
    | absent =>
      dsimp only
      rcases List.mem_cons.mp he with rfl | h2
      · rw [hf] at hm; cases hm
      · exact ih ⟨e, h2, hm⟩
    | malformed => rfl
    | valid j =>
      dsimp only
      cases hr : mkRow idx slug j with
      | none => rfl
      | some r =>
        dsimp only
        rcases List.mem_cons.mp he with rfl | h2
        · rw [hf] at hm; cases hm
        · exact ih ⟨e, h2, hm⟩

theorem loop_congr (td1 td2 : String) (fs1 fs2 : String → FileContent) :
    ∀ l : List (Nat × String), (∀ e ∈ l, fs1 e.2 = fs2 e.2) →
      (loop td1 fs1 l).values = (loop td2 fs2 l).values
        ∧ (loop td1 fs1 l).ok = (loop td2 fs2 l).ok := by
  intro l
  induction l with
  | nil => intro _; exact ⟨rfl, rfl⟩
  | cons a l' ih =>
    intro h
    obtain ⟨idx, slug⟩ := a
    have ha := h (idx, slug) (List.mem_cons_self (idx, slug) l')
    have ih2 := ih (fun x hx => h x (List.mem_cons_of_mem (idx, slug) hx))
    dsimp only at ha
    rw [loop, loop, ← ha]
    cases hf : fs1 slug with
    | absent =>
      refine ⟨?_, ?_⟩ <;> dsimp only
      · exact ih2.1
      · exact ih2.2
    | malformed =>
      refine ⟨?_, ?_⟩ <;> dsimp only
    | valid j =>
      dsimp only
      cases hr : mkRow idx slug j with
      | none => exact ⟨rfl, rfl⟩
      | some r =>
        refine ⟨?_, ?_⟩ <;> dsimp only
        · rw [ih2.1]
        · exact ih2.2

theorem enumL_mem (l : List String) :
    ∀ (n : Nat) (p : Nat × String), p ∈ enumL n l ↔
      ∃ k, ∃ hk : k < l.length, p.1 = n + k ∧ l.get ⟨k, hk⟩ = p.2 := by
  induction l with
  | nil =>
    intro n p
    constructor
    · intro h; cases h
    · rintro ⟨k, hk, -⟩; exact absurd hk (by simp)
  | cons a l' ih =>
    intro n p
    rw [enumL]
    constructor
    · intro h
      rcases List.mem_cons.mp h with rfl | h2
      · exact ⟨0, by simp, by simp, by simp⟩
      · obtain ⟨k, hk, h1, h2⟩ := (ih (n + 1) p).mp h2
        refine ⟨k + 1, by simp only [List.length_cons]; omega, by omega, ?_⟩
        simpa using h2
    · rintro ⟨k, hk, h1, h2⟩
      cases k with
      | zero =>
        obtain ⟨p1, p2⟩ := p
        simp only [List.get_cons_zero] at h2
        dsimp only at h1
        apply List.mem_cons.mpr
        exact Or.inl (by rw [Prod.mk.injEq]; exact ⟨by omega, h2.symm⟩)
      | succ k2 =>
        apply List.mem_cons.mpr
        refine Or.inr ((ih (n + 1) p).mpr ⟨k2, by simp only [List.length_cons] at hk; omega,
          by omega, ?_⟩)
        simpa using h2

theorem enumL_snd (l : List String) : ∀ n, (enumL n l).map Prod.snd = l := by
  induction l with
  | nil => intro n; rfl
  | cons a l' ih => intro n; rw [enumL, List.map_cons, ih (n + 1)]

theorem enumL_snd_mem (l : List String) :
    ∀ n, ∀ e ∈ enumL n l, e.2 ∈ l := by
  intro n e he
  have : e.2 ∈ (enumL n l).map Prod.snd := List.mem_map_of_mem Prod.snd he
  rwa [enumL_snd l n] at this

theorem mem_enumL_of_mem (l : List String) (s : String) (h : s ∈ l) :
    ∃ e ∈ enumL 0 l, e.2 = s := by
  obtain ⟨⟨k, hk⟩, hget⟩ := List.mem_iff_get.mp h
  exact ⟨(0 + k, s), (enumL_mem l 0 (0 + k, s)).mpr ⟨k, hk, rfl, hget⟩, rfl⟩

theorem enumL_filter_snd (l : List String) (p : String → Bool) :
    ∀ n, ((enumL n l).filter (fun e => p e.2)).map Prod.snd = l.filter p := by
  induction l with
  | nil => intro n; rfl
  | cons a l' ih =>
    intro n
    rw [enumL, List.filter_cons, List.filter_cons]
    dsimp only
    cases hp : p a with
    | true => rw [if_pos rfl, if_pos rfl, List.map_cons, ih (n + 1)]
    | false => rw [if_neg (by simp), if_neg (by simp), ih (n + 1)]

theorem rowsOfL_slugs (fs : String → FileContent) :
    ∀ l : List (Nat × String), (∀ e ∈ l, entryOk fs e = true) →
      (rowsOfL fs l).map Row.slug = (l.filter (fun e => isValidF (fs e.2))).map Prod.snd := by
  intro l
  induction l with
  | nil => intro _; rfl
  | cons e l' ih =>
    intro h
    obtain ⟨idx, slug⟩ := e
    have ih2 := ih (fun x hx => h x (List.mem_cons_of_mem (idx, slug) hx))
    have he := h (idx, slug) (List.mem_cons_self (idx, slug) l')
    rw [entryOk] at he
    dsimp only at he
    rw [rowsOfL, List.filterMap_cons, List.filter_cons]
    dsimp only
    cases hf : fs slug with
    | absent =>
      rw [if_neg (by decide)]
      exact ih2
    | malformed => rw [hf] at he; simp at he
    | valid j =>
      rw [hf] at he
      dsimp only at he
      cases hr : mkRow idx slug j with
      | none => rw [hr] at he; simp at he
      | some r =>
        dsimp only
        rw [hr, if_pos (show isValidF (FileContent.valid j) = true from rfl)]
        dsimp only
        rw [List.map_cons, List.map_cons, (mkRow_some idx slug j r hr).1]
        show slug :: (rowsOfL fs l').map Row.slug
          = (idx, slug).2 :: (l'.filter (fun e => isValidF (fs e.2))).map Prod.snd
        rw [ih2]

theorem rowsOfL_mem (fs : String → FileContent) (l : List (Nat × String)) (r : Row)
    (h : r ∈ rowsOfL fs l) :
    ∃ e ∈ l, ∃ j, fs e.2 = .valid j ∧ mkRow e.1 e.2 j = some r := by
  rw [rowsOfL] at h
  obtain ⟨e, he, hfe⟩ := List.mem_filterMap.mp h
  refine ⟨e, he, ?_⟩
  cases hf : fs e.2 with
  | absent => rw [hf] at hfe; cases hfe
  | malformed => rw [hf] at hfe; cases hfe
  | valid j => rw [hf] at hfe; exact ⟨j, rfl, hfe⟩

theorem rowsOfL_mem_of (fs : String → FileContent) (l : List (Nat × String))
    (e : Nat × String) (j : Json) (r : Row)
    (he : e ∈ l) (hf : fs e.2 = .valid j) (hr : mkRow e.1 e.2 j = some r) :
    r ∈ rowsOfL fs l := by
  rw [rowsOfL]
  exact List.mem_filterMap.mpr ⟨e, he, by rw [hf]; exact hr⟩

theorem rowsOfL_nil (fs : String → FileContent) (l : List (Nat × String))
    (h : ∀ e ∈ l, fs e.2 = .absent) : rowsOfL fs l = [] := by
  rw [rowsOfL]
  rw [List.filterMap_eq_nil_iff]
  intro e he
  rw [h e he]

theorem themes_nodup : THEMES_TO_SEED.Nodup := by decide

/-! ### Runs -/

theorem run_ok (td : String) (fs : String → FileContent) (prev : Option String)
    (h : okFs fs) :
    run td fs prev
      = ⟨some (sqlHeader ++ pyJoin ",\n" ((rowsOf fs).map mkValue) ++ sqlFooter),
          warnsOfL td fs (enumL 0 THEMES_TO_SEED), true⟩ := by
  rw [run, loop_ok td fs (enumL 0 THEMES_TO_SEED) h]
  rfl

theorem run_fail (td : String) (fs : String → FileContent) (prev : Option String)
    (h : ∃ s ∈ THEMES_TO_SEED, fs s = .malformed) :
    (run td fs prev).outFile = prev ∧ (run td fs prev).ok = false := by
  have hm : ∃ e ∈ enumL 0 THEMES_TO_SEED, fs e.2 = .malformed := by
    obtain ⟨s, hs, hsm⟩ := h
    obtain ⟨e, he, he2⟩ := mem_enumL_of_mem THEMES_TO_SEED s hs
    exact ⟨e, he, by rw [he2]; exact hsm⟩
  have hl := loop_fail td fs (enumL 0 THEMES_TO_SEED) hm
  constructor <;> simp [run, hl]

/-! ### Quote escaping -/

theorem sqlUnesc_esc (l : List Char) : sqlUnesc (sqlEscList l) = l := by
  induction l with
  | nil => rfl
  | cons c cs ih =>
    rw [sqlEscList, sqlEscChar]
    by_cases h : c = squote
    · subst h
      rw [if_pos rfl]
      show sqlUnesc (squote :: squote :: sqlEscList cs) = squote :: cs
      cases hcs : sqlEscList cs with
      | nil =>
        rw [sqlUnesc, if_pos ⟨rfl, rfl⟩, ← hcs, ih]
      | cons d ds =>
        rw [← hcs, sqlUnesc, if_pos ⟨rfl, rfl⟩, ih]
    · rw [if_neg h]
      show sqlUnesc (c :: sqlEscList cs) = c :: cs
      cases hcs : sqlEscList cs with
      | nil =>
        have : cs = [] := by
          cases cs with
          | nil => rfl
          | cons d ds =>
            rw [sqlEscList, sqlEscChar] at hcs
            by_cases hd : d = squote
            · rw [if_pos hd] at hcs; cases hcs
            · rw [if_neg hd] at hcs; cases hcs
        rw [this]
        rfl
      | cons d ds =>
        rw [sqlUnesc, if_neg (by rintro ⟨h1, -⟩; exact h h1), ← hcs, ih]

theorem countQ_append (a b : List Char) : countQ (a ++ b) = countQ a + countQ b := by
  simp only [countQ, List.countP_append]

theorem countQ_sqlEscChar (c : Char) : countQ (sqlEscChar c) = 2 * countQ [c] := by
  simp only [sqlEscChar, countQ]
  by_cases h : c = squote
  · subst h
    rw [if_pos rfl]
    decide
  · rw [if_neg h]
    simp [List.countP_cons, h]

theorem countQ_esc (l : List Char) : countQ (sqlEscList l) = 2 * countQ l := by
  induction l with
  | nil => rfl
  | cons c cs ih =>
    rw [sqlEscList, countQ_append, countQ_sqlEscChar, ih,
      show c :: cs = [c] ++ cs from rfl, countQ_append]
    omega

theorem length_sqlEscChar (c : Char) : (sqlEscChar c).length = 1 + countQ [c] := by
  simp only [sqlEscChar, countQ]
  by_cases h : c = squote
  · subst h
    rw [if_pos rfl]
    decide
  · rw [if_neg h]
    simp [List.countP_cons, h]

theorem sqlEscList_length (l : List Char) :
    (sqlEscList l).length = l.length + countQ l := by
  induction l with
  | nil => rfl
  | cons c cs ih =>
    rw [sqlEscList, List.length_append, length_sqlEscChar, ih, List.length_cons,
      show c :: cs = [c] ++ cs from rfl, countQ_append]
    omega

theorem escChar_plain (c : Char) (h32 : 32 ≤ c.toNat) (hq : c ≠ '"') (hb : c ≠ '\\') :
    escChar c = [c] := by
  have h3 : c ≠ '\x08' := by rintro rfl; exact absurd h32 (by decide)
  have h4 : c ≠ '\x0c' := by rintro rfl; exact absurd h32 (by decide)
  have h5 : c ≠ '\n' := by rintro rfl; exact absurd h32 (by decide)
  have h6 : c ≠ '\r' := by rintro rfl; exact absurd h32 (by decide)
  have h7 : c ≠ '\t' := by rintro rfl; exact absurd h32 (by decide)
  rw [escChar, if_neg hb, if_neg hq, if_neg h3, if_neg h4, if_neg h5, if_neg h6, if_neg h7,
    if_neg (by omega)]

/-! ### Field extraction -/

theorem getStrField_absent (mf : List (String × Json)) (k dflt : String)
    (h : dictGet mf k = none) : getStrField (.obj mf) k dflt = some dflt := by
  simp [getStrField, h]

theorem getStrField_str (mf : List (String × Json)) (k dflt s : String)
    (h : dictGet mf k = some (.str s)) : getStrField (.obj mf) k dflt = some s := by
  simp [getStrField, h]

theorem sq_data : sq.data = [squote] := rfl

theorem mkValue_decomp (r : Row) :
    (mkValue r).data
      = (mkValuePre r).data ++ (squote :: (r.category.data ++ [squote])) ++ (mkValueSuf r).data := by
  simp only [mkValue, mkValuePre, mkValueSuf, String.data_append, sq_data,
    List.append_assoc, List.cons_append, List.nil_append, List.singleton_append]

/-! ### The claims -/

/-- Claim C3: if any present theme file is malformed JSON, the run aborts
with a fatal error before the output file is opened or written, so the
previously existing output file is left unmodified and no partial SQL is
persisted. -/
theorem claim3_malformed_aborts (td : String) (fs : String → FileContent) (prev : Option String)
    (h : ∃ s ∈ THEMES_TO_SEED, fs s = .malformed) :
    (run td fs prev).ok = false ∧ (run td fs prev).outFile = prev := by
  obtain ⟨h1, h2⟩ := run_fail td fs prev h
  exact ⟨h2, h1⟩

theorem claim3_witness :
    (run "themes" fsOneBad (some "old content")).ok = false
    ∧ (run "themes" fsOneBad (some "old content")).outFile = some "old content" :=
  claim3_malformed_aborts "themes" fsOneBad (some "old content")
    ⟨"spicy-fusion", by decide, rfl⟩

/-- Claim C7: for every loaded theme the text embedded between the dollar
quotes of its row is the compact serialization of the whole parsed document
(characters at or above space other than the quote and backslash, including
non-ASCII ones, are emitted literally), and reading that text back yields a
document equal to the original, with no field loss. -/
theorem claim7_roundtrip (idx : Nat) (slug : String) (j : Json) (r : Row)
    (h : mkRow idx slug j = some r) :
    r.presetData = dumps j
    ∧ loads r.presetData = some j
    ∧ (∀ c : Char, 32 ≤ c.toNat → c ≠ '"' → c ≠ '\\' → escChar c = [c]) := by
  have h3 := (mkRow_some idx slug j r h).2.2
  exact ⟨h3, by rw [h3]; exact loads_dumps j,
    fun c h32 hq hb => escChar_plain c h32 hq hb⟩

theorem claim7_witness :
    mkRow 0 "modern-bistro" (Json.obj []) = some row0
    ∧ loads row0.presetData = some (Json.obj []) :=
  ⟨rfl, (claim7_roundtrip 0 "modern-bistro" (Json.obj []) row0 rfl).2.1⟩

/-- Claim C9: when every theme file is absent the run still succeeds and
writes exactly the fixed header immediately followed by the fixed footer,
with no row tuples between them. -/
theorem claim9_empty_values (td : String) (fs : String → FileContent) (prev : Option String)
    (h : ∀ s ∈ THEMES_TO_SEED, fs s = .absent) :
    (run td fs prev).ok = true
    ∧ (run td fs prev).outFile = some (sqlHeader ++ sqlFooter) := by
  have habs : ∀ e ∈ enumL 0 THEMES_TO_SEED, fs e.2 = .absent :=
    fun e he => h e.2 (enumL_snd_mem THEMES_TO_SEED 0 e he)
  have hok : okFs fs := by
    intro e he
    rw [entryOk, habs e he]
  rw [run_ok td fs prev hok]
  refine ⟨rfl, ?_⟩
  show some (sqlHeader ++ pyJoin ",\n" ((rowsOf fs).map mkValue) ++ sqlFooter) = _
  rw [rowsOf, rowsOfL_nil fs _ habs]
  rfl

theorem claim9_witness :
    (run "themes" fsAllAbsent none).ok = true
    ∧ (run "themes" fsAllAbsent none).outFile = some (sqlHeader ++ sqlFooter) :=
  claim9_empty_values "themes" fsAllAbsent none (fun _ _ => rfl)

/-- Claim C10: the generated output text is a pure function of the contents
of the ten listed theme files: two runs over filesystems that agree on the
fixed list succeed or fail together and, on success, write byte-identical
output, independently of the themes directory, the previous file state, or
anything else. -/
theorem claim10_determinism (td1 td2 : String) (fs1 fs2 : String → FileContent)
    (prev1 prev2 : Option String)
    (h : ∀ s ∈ THEMES_TO_SEED, fs1 s = fs2 s) :
    (run td1 fs1 prev1).ok = (run td2 fs2 prev2).ok
    ∧ ((run td1 fs1 prev1).ok = true →
        (run td1 fs1 prev1).outFile = (run td2 fs2 prev2).outFile) := by
  have hl : ∀ e ∈ enumL 0 THEMES_TO_SEED, fs1 e.2 = fs2 e.2 :=
    fun e he => h e.2 (enumL_snd_mem THEMES_TO_SEED 0 e he)
  have hc := loop_congr td1 td2 fs1 fs2 (enumL 0 THEMES_TO_SEED) hl
  cases ho : (loop td1 fs1 (enumL 0 THEMES_TO_SEED)).ok with
  | true =>
    have ho2 : (loop td2 fs2 (enumL 0 THEMES_TO_SEED)).ok = true := by rw [← hc.2]; exact ho
    constructor
    · simp [run, ho, ho2]
    · intro _
      simp [run, ho, ho2, hc.1]
  | false =>
    have ho2 : (loop td2 fs2 (enumL 0 THEMES_TO_SEED)).ok = false := by rw [← hc.2]; exact ho
    constructor
    · simp [run, ho, ho2]
    · intro hcontra
      rw [run] at hcontra
      simp [ho] at hcontra

theorem claim10_witness :
    (run "a" fsAllEmptyObj none).ok = (run "b" fsAllEmptyObj (some "x")).ok
    ∧ ((run "a" fsAllEmptyObj none).ok = true →
        (run "a" fsAllEmptyObj none).outFile = (run "b" fsAllEmptyObj (some "x")).outFile) :=
  claim10_determinism "a" "b" fsAllEmptyObj fsAllEmptyObj none (some "x") (fun _ _ => rfl)

/-- Claim C1: on a run where every iteration succeeds, the output is the
header, the comma-separated row tuples in fixed-list order, and the footer;
the slugs of the emitted rows are exactly the present identifiers in
fixed-list order, and an identifier whose file is present and valid gets
exactly one row with its slug. -/
theorem claim1_one_row_per_valid_theme (td : String) (fs : String → FileContent)
    (prev : Option String) (s : String) (j : Json)
    (hok : okFs fs) (hs : s ∈ THEMES_TO_SEED) (hv : fs s = .valid j) :
    (run td fs prev).ok = true
    ∧ (run td fs prev).outFile
        = some (sqlHeader ++ pyJoin ",\n" ((rowsOf fs).map mkValue) ++ sqlFooter)
    ∧ (rowsOf fs).map Row.slug = THEMES_TO_SEED.filter (fun t => isValidF (fs t))
    ∧ ((rowsOf fs).map Row.slug).count s = 1 := by
  have hslugs : (rowsOf fs).map Row.slug = THEMES_TO_SEED.filter (fun t => isValidF (fs t)) := by
    rw [rowsOf, rowsOfL_slugs fs (enumL 0 THEMES_TO_SEED) hok,
      enumL_filter_snd THEMES_TO_SEED (fun t => isValidF (fs t)) 0]
  refine ⟨by rw [run_ok td fs prev hok], by rw [run_ok td fs prev hok], hslugs, ?_⟩
  rw [hslugs]
  refine List.count_eq_one_of_mem (themes_nodup.filter _) ?_
  rw [List.mem_filter]
  exact ⟨hs, by rw [hv]; rfl⟩


theorem claim1_witness :
    okFs fsAllEmptyObj
    ∧ (run "themes" fsAllEmptyObj none).ok = true
    ∧ ((rowsOf fsAllEmptyObj).map Row.slug).count "modern-bistro" = 1 :=
  ⟨by decide,
    (claim1_one_row_per_valid_theme "themes" fsAllEmptyObj none "modern-bistro" (.obj [])
      (by decide) (by decide) rfl).1,
    (claim1_one_row_per_valid_theme "themes" fsAllEmptyObj none "modern-bistro" (.obj [])
      (by decide) (by decide) rfl).2.2.2⟩

/-- Claim C2: the row emitted for the identifier at 0-based position `i` of
the fixed list carries `sort_order = i + 7`, computed from the position in
the fixed list regardless of which other identifiers were skipped; such a
row exists whenever the file at position `i` is present and valid, and every
row carrying that slug has that sort order. -/
theorem claim2_sort_order (fs : String → FileContent) (i : Nat) (j : Json)
    (hok : okFs fs) (hi : i < THEMES_TO_SEED.length)
    (hv : fs (THEMES_TO_SEED.get ⟨i, hi⟩) = .valid j) :
    (∃ r ∈ rowsOf fs, r.slug = THEMES_TO_SEED.get ⟨i, hi⟩ ∧ r.sortOrder = i + 7)
    ∧ ∀ r ∈ rowsOf fs, r.slug = THEMES_TO_SEED.get ⟨i, hi⟩ → r.sortOrder = i + 7 := by
  constructor
  · have he : (0 + i, THEMES_TO_SEED.get ⟨i, hi⟩) ∈ enumL 0 THEMES_TO_SEED :=
      (enumL_mem THEMES_TO_SEED 0 (0 + i, THEMES_TO_SEED.get ⟨i, hi⟩)).mpr ⟨i, hi, rfl, rfl⟩
    have hE := hok _ he
    rw [entryOk] at hE
    dsimp only at hE
    rw [hv] at hE
    dsimp only at hE
    cases hr : mkRow (0 + i) (THEMES_TO_SEED.get ⟨i, hi⟩) j with
    | none => rw [hr] at hE; simp at hE
    | some r =>
      refine ⟨r, rowsOfL_mem_of fs _ _ j r he hv hr, (mkRow_some _ _ _ _ hr).1, ?_⟩
      have h2 := (mkRow_some _ _ _ _ hr).2.1
      omega
  · intro r hr hslug
    obtain ⟨e, he, j2, hf2, hmk⟩ := rowsOfL_mem fs _ r hr
    obtain ⟨k, hk, h1, h2⟩ := (enumL_mem THEMES_TO_SEED 0 e).mp he
    have hslug2 : r.slug = e.2 := (mkRow_some _ _ _ _ hmk).1
    have hget : THEMES_TO_SEED.get ⟨k, hk⟩ = THEMES_TO_SEED.get ⟨i, hi⟩ := by
      rw [h2, ← hslug2, hslug]
    have hki : k = i := by
      have h3 := (List.Nodup.get_inj_iff themes_nodup).mp hget
      exact congrArg Fin.val h3
    have hso := (mkRow_some _ _ _ _ hmk).2.1
    omega

theorem claim2_witness :
    fsAllEmptyObj (THEMES_TO_SEED.get ⟨9, by decide⟩) = .valid (.obj [])
    ∧ (∃ r ∈ rowsOf fsAllEmptyObj,
        r.slug = THEMES_TO_SEED.get ⟨9, by decide⟩ ∧ r.sortOrder = 9 + 7) :=
  ⟨rfl, (claim2_sort_order fsAllEmptyObj 9 (.obj []) (by decide) (by decide) rfl).1⟩

/-- Claim C4: an identifier whose file is absent yields a warning naming the
identifier and path, no row with its slug, and no error: provided every
present file loads, the run still succeeds and writes the (shorter) output,
with one row per present identifier. -/
theorem claim4_missing_skipped (td : String) (fs : String → FileContent) (prev : Option String)
    (s : String) (hok : okFs fs) (hs : s ∈ THEMES_TO_SEED) (ha : fs s = .absent) :
    (run td fs prev).ok = true
    ∧ warningMsg td s ∈ (run td fs prev).warnings
    ∧ (∀ r ∈ rowsOf fs, r.slug ≠ s)
    ∧ (run td fs prev).outFile
        = some (sqlHeader ++ pyJoin ",\n" ((rowsOf fs).map mkValue) ++ sqlFooter)
    ∧ (rowsOf fs).length = (THEMES_TO_SEED.filter (fun t => isValidF (fs t))).length := by
  have hrun := run_ok td fs prev hok
  have hslugs : (rowsOf fs).map Row.slug = THEMES_TO_SEED.filter (fun t => isValidF (fs t)) := by
    rw [rowsOf, rowsOfL_slugs fs (enumL 0 THEMES_TO_SEED) hok,
      enumL_filter_snd THEMES_TO_SEED (fun t => isValidF (fs t)) 0]
  refine ⟨by rw [hrun], ?_, ?_, by rw [hrun], ?_⟩
  · rw [hrun]
    show warningMsg td s ∈ warnsOfL td fs (enumL 0 THEMES_TO_SEED)
    obtain ⟨e, he, he2⟩ := mem_enumL_of_mem THEMES_TO_SEED s hs
    rw [warnsOfL]
    refine List.mem_filterMap.mpr ⟨e, he, ?_⟩
    rw [he2, ha]
  · intro r hrr hcontra
    have hmem : r.slug ∈ (rowsOf fs).map Row.slug := List.mem_map_of_mem Row.slug hrr
    rw [hslugs, hcontra, List.mem_filter, ha] at hmem
    exact absurd hmem.2 (by decide)
  · calc (rowsOf fs).length = ((rowsOf fs).map Row.slug).length := (List.length_map _ _).symm
      _ = _ := by rw [hslugs]

theorem claim4_witness :
    (run "themes" fsNine none).ok = true
    ∧ warningMsg "themes" "garden-fresh" ∈ (run "themes" fsNine none).warnings
    ∧ (rowsOf fsNine).length = 9 := by
  have h := claim4_missing_skipped "themes" fsNine none "garden-fresh"
    (by decide) (by decide) rfl
  exact ⟨h.1, h.2.1, by rw [h.2.2.2.2]; decide⟩

/-- Claim C5: every emitted row tuple has exactly the form
`(\n <name>,\n <slug>,\n <category>,\n <description>,\n $$<json>$$::jsonb,\n <sort>\n)`
with name and description single-quote-escaped by doubling (the doubling is
lossless and exactly doubles the quote count) while the slug is embedded
unescaped. -/
theorem claim5_tuple_format (idx : Nat) (slug : String) (j : Json) (r : Row)
    (h : mkRow idx slug j = some r) :
    mkValue r = "(\n    " ++ sq ++ sqlEscape r.name ++ sq ++ ",\n    "
      ++ sq ++ slug ++ sq ++ ",\n    "
      ++ sq ++ r.category ++ sq ++ ",\n    "
      ++ sq ++ sqlEscape r.description ++ sq ++ ",\n    $$"
      ++ dumps j ++ "$$::jsonb,\n    "
      ++ natToString (idx + 7) ++ "\n)"
    ∧ sqlUnesc (sqlEscape r.name).data = r.name.data
    ∧ countQ (sqlEscape r.name).data = 2 * countQ r.name.data
    ∧ sqlUnesc (sqlEscape r.description).data = r.description.data
    ∧ countQ (sqlEscape r.description).data = 2 * countQ r.description.data := by
  obtain ⟨h1, h2, h3⟩ := mkRow_some idx slug j r h
  refine ⟨by rw [mkValue, h1, h2, h3], ?_, ?_, ?_, ?_⟩
  · exact sqlUnesc_esc r.name.data
  · exact countQ_esc r.name.data
  · exact sqlUnesc_esc r.description.data
  · exact countQ_esc r.description.data

theorem claim5_witness :
    mkRow 0 "modern-bistro" jChef
      = some ⟨chefName, "modern-bistro", "professional", chefName, dumps jChef, 7⟩
    ∧ sqlEscape chefName = "Chef" ++ sq ++ sq ++ "s Table"
    ∧ mkValue ⟨chefName, "modern-bistro", "professional", chefName, dumps jChef, 7⟩
        = "(\n    " ++ sq ++ sqlEscape chefName ++ sq ++ ",\n    "
          ++ sq ++ "modern-bistro" ++ sq ++ ",\n    "
          ++ sq ++ "professional" ++ sq ++ ",\n    "
          ++ sq ++ sqlEscape chefName ++ sq ++ ",\n    $$"
          ++ dumps jChef ++ "$$::jsonb,\n    "
          ++ natToString (0 + 7) ++ "\n)" :=
  ⟨rfl, by decide,
    (claim5_tuple_format 0 "modern-bistro" jChef
      ⟨chefName, "modern-bistro", "professional", chefName, dumps jChef, 7⟩ rfl).1⟩

/-- Claim C6: a loaded theme falls back to the defaults for absent display
fields: the name defaults to the identifier itself, the category to
"professional" and the description to the empty string, including when the
whole meta object is absent. -/
theorem claim6_defaults (idx : Nat) (slug : String) (fields mf : List (String × Json)) (r : Row)
    (h : mkRow idx slug (.obj fields) = some r) :
    (dictGet fields "meta" = some (.obj mf) →
      (dictGet mf "name" = none → r.name = slug)
      ∧ (dictGet mf "category" = none → r.category = "professional")
      ∧ (dictGet mf "description" = none → r.description = ""))
    ∧ (dictGet fields "meta" = none →
      r.name = slug ∧ r.category = "professional" ∧ r.description = "") := by
  obtain ⟨meta, name, cat, desc, hmeta, hname, hcat, hdesc, hr⟩ := mkRow_elim h
  rw [getMeta, Option.some.injEq] at hmeta
  constructor
  · intro hsome
    rw [hsome, Option.getD_some] at hmeta
    subst hmeta
    refine ⟨?_, ?_, ?_⟩
    · intro hnone
      rw [getStrField_absent mf "name" slug hnone, Option.some.injEq] at hname
      rw [hr, hname]
    · intro hnone
      rw [getStrField_absent mf "category" "professional" hnone, Option.some.injEq] at hcat
      rw [hr, hcat]
    · intro hnone
      rw [getStrField_absent mf "description" "" hnone, Option.some.injEq] at hdesc
      rw [hr, hdesc]
  · intro hnone
    rw [hnone, Option.getD_none] at hmeta
    subst hmeta
    rw [getStrField_absent [] "name" slug rfl, Option.some.injEq] at hname
    rw [getStrField_absent [] "category" "professional" rfl, Option.some.injEq] at hcat
    rw [getStrField_absent [] "description" "" rfl, Option.some.injEq] at hdesc
    rw [hr, hname, hcat, hdesc]
    exact ⟨rfl, rfl, rfl⟩

theorem claim6_witness :
    mkRow 3 "elegant-simplicity" (.obj []) = some
      ⟨"elegant-simplicity", "elegant-simplicity", "professional", "",
        dumps (.obj []), 10⟩
    ∧ (dictGet [] "meta" = none →
        (⟨"elegant-simplicity", "elegant-simplicity", "professional", "",
          dumps (.obj []), 10⟩ : Row).name = "elegant-simplicity"
        ∧ (⟨"elegant-simplicity", "elegant-simplicity", "professional", "",
            dumps (.obj []), 10⟩ : Row).category = "professional"
        ∧ (⟨"elegant-simplicity", "elegant-simplicity", "professional", "",
            dumps (.obj []), 10⟩ : Row).description = "") :=
  ⟨rfl,
    (claim6_defaults 3 "elegant-simplicity" [] []
      ⟨"elegant-simplicity", "elegant-simplicity", "professional", "", dumps (.obj []), 10⟩
      rfl).2⟩

/-- Claim C8: the category field is not quote-escaped: a loaded theme whose
`meta.category` string contains a single quote has that string embedded
verbatim between the single quotes of the category position of its tuple,
and the quote-doubling escape would have changed it. -/
theorem claim8_category_unescaped (idx : Nat) (slug : String)
    (fields mf : List (String × Json)) (c : String) (r : Row)
    (hm : dictGet fields "meta" = some (.obj mf))
    (hc : dictGet mf "category" = some (.str c))
    (h : mkRow idx slug (.obj fields) = some r)
    (hq : squote ∈ c.data) :
    r.category = c
    ∧ (∃ A B : List Char,
        (mkValue r).data = A ++ (squote :: (c.data ++ [squote])) ++ B)
    ∧ sqlEscape c ≠ c := by
  obtain ⟨meta, name, cat, desc, hmeta, hname, hcat, hdesc, hr⟩ := mkRow_elim h
  rw [getMeta, Option.some.injEq, hm, Option.getD_some] at hmeta
  subst hmeta
  rw [getStrField_str mf "category" "professional" c hc, Option.some.injEq] at hcat
  have hrc : r.category = c := by rw [hr, hcat]
  refine ⟨hrc, ⟨(mkValuePre r).data, (mkValueSuf r).data, ?_⟩, ?_⟩
  · rw [mkValue_decomp r, hrc]
  · intro heq
    have hlen := congrArg List.length (congrArg String.data heq)
    have hesc : (sqlEscape c).data = sqlEscList c.data := rfl
    rw [hesc, sqlEscList_length] at hlen
    have hpos : 0 < countQ c.data := by
      rw [countQ, List.countP_pos_iff]
      exact ⟨squote, hq, by simp⟩
    omega

theorem claim8_witness :
    mkRow 0 "modern-bistro" jQuoteCat = some
      ⟨"modern-bistro", "modern-bistro", catWithQuote, "", dumps jQuoteCat, 7⟩
    ∧ (⟨"modern-bistro", "modern-bistro", catWithQuote, "", dumps jQuoteCat, 7⟩ : Row).category
        = catWithQuote
    ∧ sqlEscape catWithQuote ≠ catWithQuote :=
  ⟨rfl,
    (claim8_category_unescaped 0 "modern-bistro"
      [("meta", .obj [("category", .str catWithQuote)])] [("category", .str catWithQuote)]
      catWithQuote
      ⟨"modern-bistro", "modern-bistro", catWithQuote, "", dumps jQuoteCat, 7⟩
      rfl rfl rfl (by decide)).1,
    (claim8_category_unescaped 0 "modern-bistro"
      [("meta", .obj [("category", .str catWithQuote)])] [("category", .str catWithQuote)]
      catWithQuote
      ⟨"modern-bistro", "modern-bistro", catWithQuote, "", dumps jQuoteCat, 7⟩
      rfl rfl rfl (by decide)).2.2⟩

end ThemeSeed
